import Mathlib

/-!
# Verification of `romanisim/cr.py`

A shallow embedding of the cosmic-ray simulation module `romanisim/cr.py`
(functions `create_sampler`, `moyal_distribution`, `power_law_distribution`,
`sample_cr_params`, `traverse`, `simulate_crs`) together with theorems that
settle the specification claims about it.

Modelling conventions:

* Machine floating-point numbers are modelled by exact arithmetic: the grid
  geometry of `traverse` is stated over any linearly ordered field with a
  floor function (instantiated at `ℚ` for concrete, decidable evaluations and
  at `ℝ` inside `simulate_crs`, whose trigonometric endpoint computation
  needs `Real.cos`/`Real.sin`).  All concrete inputs used below keep every
  comparison far away from representation boundaries, so the exact-field
  verdicts coincide with the float verdicts.
* NumPy's `Generator` is modelled as a deterministic pair of oracle streams
  (`unif` for `random`, values forced into `[0,1)` exactly as `random`
  guarantees, and `pois` for `poisson`), each consumed through a counter.
  `poisson(lam)` returns an arbitrary natural number from the stream except
  that a zero mean forces a zero draw, which is the only distributional fact
  the code relies on (`flux = 0` must give zero events).
* A Python statement that raises is modelled by an error value:
  `traverse` returns `Except CrError _` because the branch that handles a
  final crossing coinciding with an integer grid point leaves the local
  variable `lengths` unassigned, so the `return` raises `UnboundLocalError`.
  `simulate_crs` returns `Option` (`none` = the call raised).
* NumPy's `np.unique(..., axis=0)` sorts rows lexicographically and removes
  exact duplicates; the preceding `argsort` by the first column has no
  observable effect on the final result and is modelled away.  `0.0/0.0`
  (which is NaN in IEEE arithmetic and raises nothing) is modelled by the
  total field division `x / 0 = 0`; the theorems concerned with it only use
  the fact that no exception is raised and record the zero divisor itself.
-/

namespace Romanisim

/-- Errors a Python call can raise.  `unboundLengths` models the
`UnboundLocalError` raised by `traverse` when the local `lengths` is read
without having been assigned; `outOfRange` models `scipy.interpolate.interp1d`'s
`ValueError` for a query outside the data range. -/
inductive CrError : Type
  | unboundLengths : CrError
  | outOfRange : CrError
deriving DecidableEq, Repr

instance {ε α : Type} [DecidableEq ε] [DecidableEq α] : DecidableEq (Except ε α) :=
  fun x y =>
    match x, y with
    | .ok a, .ok b =>
      if h : a = b then .isTrue (by rw [h]) else
        .isFalse (fun hc => h (by injection hc))
    | .error a, .error b =>
      if h : a = b then .isTrue (by rw [h]) else
        .isFalse (fun hc => h (by injection hc))
    | .ok _, .error _ => .isFalse (fun hc => by injection hc)
    | .error _, .ok _ => .isFalse (fun hc => by injection hc)

section FieldDefs

variable {K : Type} [LinearOrderedField K] [FloorRing K]

/-- `np.sign` on a scalar. -/
def sgn (x : K) : K :=
  if 0 < x then 1 else if x < 0 then -1 else 0

/-- `np.clip(x, lo, hi)`. -/
def clip (x lo hi : K) : K :=
  min (max x lo) hi

/-- Running cumulative sum, starting from accumulator `acc`
(`cumsum l = cumsumFrom 0 l` models `np.cumsum`). -/
def cumsumFrom (acc : K) : List K → List K
  | [] => []
  | x :: t => (acc + x) :: cumsumFrom (acc + x) t

/-- `np.cumsum`. -/
def cumsum (l : List K) : List K := cumsumFrom 0 l

/-- `arr.max()`; NumPy raises on an empty array, which no call site reaches,
so the empty case returns the default head `0`. -/
def listMax (l : List K) : K := l.foldl max (l.headD 0)

/-- Insert a point into a lexicographically sorted, duplicate-free list of
rows, keeping it sorted and duplicate-free. -/
def lexInsert (p : K × K) : List (K × K) → List (K × K)
  | [] => [p]
  | q :: t =>
    if p.1 < q.1 ∨ (p.1 = q.1 ∧ p.2 < q.2) then p :: q :: t
    else if p = q then q :: t
    else q :: lexInsert p t

/-- `np.unique(rows, axis=0)`: the lexicographically sorted list of the
distinct rows. -/
def uniqueRows (l : List (K × K)) : List (K × K) :=
  l.foldl (fun acc p => lexInsert p acc) []

/-- `np.diff(rows, axis=0)`: differences of consecutive rows. -/
def adjDiffs : List (K × K) → List (K × K)
  | a :: b :: t => (b.1 - a.1, b.2 - a.2) :: adjDiffs (b :: t)
  | _ => []

/-- Absolute tolerance of `np.isclose(x, 0)` (its default `atol=1e-8`;
the relative part vanishes against the reference value `0`). -/
def atol : K := 1 / 100000000

/-- `np.isclose(x, 0)` with NumPy's default tolerances. -/
def iscloseZero (x : K) : Prop := |x| ≤ atol

instance (x : K) : Decidable (iscloseZero x) := by
  unfold iscloseZero; infer_instance

/-- The crossing points computed by `traverse` (after canonicalization to
`i0 ≤ i1`): points stepped in unit increments from the start point
(`cross_i`: steps of 1 in i; `cross_j`: steps of 1 in j), merged, sorted
lexicographically with duplicates removed (`np.unique(..., axis=0)`; the
preceding argsort by the first column has no effect on that result), and
filtered to the detector edge `[0, N_i] × [0, N_j]`. -/
def survivingCrossings (i0 j0 i1 j1 : K) (N_i N_j : ℕ) : List (K × K) :=
  let di := i1 - i0
  let dj := j1 - j0
  let cross_i : List (K × K) :=
    if di ≠ 0 then
      (List.range ((Int.toNat ⌊|di|⌋) + 1)).map
        (fun k => (i0 + sgn di * k * 1, j0 + sgn di * k * (dj / di)))
    else [(i0, j0)]
  let cross_j : List (K × K) :=
    if dj ≠ 0 then
      (List.range ((Int.toNat ⌊|dj|⌋) + 1)).map
        (fun k => (i0 + sgn dj * k * (di / dj), j0 + sgn dj * k * 1))
    else [(i0, j0)]
  let merged := uniqueRows (cross_i ++ cross_j)
  -- remove pixels that go outside the detector edge
  merged.filter
    (fun c => decide (0 ≤ c.1 ∧ c.1 ≤ (N_i : K) ∧ 0 ≤ c.2 ∧ c.2 ≤ (N_j : K)))

/-- The body of `traverse` after direction canonicalization: `i0 ≤ i1` is
the caller's responsibility (mirroring the swap at the top of `traverse`).

Returns the pixel index lists `ii`, `jj` together with the list of 2-d
difference vectors whose Euclidean norms are the returned `lengths` array
(the norms themselves live in `ℝ`, see `realLengths`). -/
def traverseCore (i0 j0 i1 j1 : K) (N_i N_j : ℕ) :
    Except CrError (List ℤ × List ℤ × List (K × K)) :=
  let di := i1 - i0
  let dj := j1 - j0
  let crossings := survivingCrossings i0 j0 i1 j1 N_i N_j
  if 1 < crossings.length then
    let pixels := crossings.map (fun c => ((⌊c.1⌋ : ℤ), (⌊c.2⌋ : ℤ)))
    let ii := pixels.map Prod.fst
    let jj := pixels.map Prod.snd
    let last := crossings.getLastD (0, 0)
    let last_diff : K × K := (last.1 - (⌊last.1⌋ : ℤ), last.2 - (⌊last.2⌋ : ℤ))
    if iscloseZero last_diff.1 ∧ iscloseZero last_diff.2 then
      -- Python drops the final pixel, rebinds `diffs`, and then executes
      -- `return ii, jj, lengths` with `lengths` never assigned on this
      -- path: the call raises `UnboundLocalError`.
      .error .unboundLengths
    else
      .ok (ii, jj, adjDiffs crossings ++ [last_diff])
  else
    let pixels := crossings.map (fun c => ((⌊c.1⌋ : ℤ), (⌊c.2⌋ : ℤ)))
    .ok (pixels.map Prod.fst, pixels.map Prod.snd, [(di, dj)])

/-- `traverse(trail_start, trail_end, N_i, N_j)` from `romanisim/cr.py`. -/
def traverse (trail_start trail_end : K × K) (N_i : ℕ := 4096) (N_j : ℕ := 4096) :
    Except CrError (List ℤ × List ℤ × List (K × K)) :=
  if trail_start.1 < trail_end.1 then
    traverseCore trail_start.1 trail_start.2 trail_end.1 trail_end.2 N_i N_j
  else
    traverseCore trail_end.1 trail_end.2 trail_start.1 trail_start.2 N_i N_j

end FieldDefs

/-- `traverse` at the rationals: the exact-arithmetic model used for the
concrete grid-geometry evaluations. -/
def traverseQ (trail_start trail_end : ℚ × ℚ) (N_i N_j : ℕ) :
    Except CrError (List ℤ × List ℤ × List (ℚ × ℚ)) :=
  traverse trail_start trail_end N_i N_j

/-- The `lengths` array returned by `traverse`: Euclidean norms of the
difference vectors. -/
noncomputable def realLengths (diffs : List (ℚ × ℚ)) : List ℝ :=
  diffs.map (fun d => Real.sqrt ((d.1 : ℝ) ^ 2 + (d.2 : ℝ) ^ 2))

/-- The 2-d Euclidean distance between two points of the pixel plane. -/
noncomputable def trailDist (s e : ℚ × ℚ) : ℝ :=
  Real.sqrt (((e.1 - s.1 : ℚ) : ℝ) ^ 2 + ((e.2 - s.2 : ℚ) : ℝ) ^ 2)

/-- The pixel list of a `traverse` result (empty for a raising call). -/
def pixelsOfResult (r : Except CrError (List ℤ × List ℤ × List (ℚ × ℚ))) :
    List (ℤ × ℤ) :=
  match r with
  | .ok (ii, jj, _) => ii.zip jj
  | .error _ => []

/-! ## Sampling engine (`create_sampler` and the two densities) -/

section SamplerDefs

variable {K : Type} [LinearOrderedField K] [FloorRing K]

/-- The object returned by `scipy.interpolate.interp1d(cdf_y, x)`: the sample
points `(cdf_y[k], x[k])`, sorted by abscissa (which `interp1d` does on
construction), interpolated linearly on evaluation. -/
structure Sampler (K : Type) where
  points : List (K × K)
deriving DecidableEq

/-- Stable insertion into a list sorted by first component. -/
def insertByFst (p : K × K) : List (K × K) → List (K × K)
  | [] => [p]
  | q :: t => if q.1 < p.1 then q :: insertByFst p t else p :: q :: t

/-- Stable sort by first component (the argsort `interp1d` performs). -/
def sortByFst : List (K × K) → List (K × K)
  | [] => []
  | p :: t => insertByFst p (sortByFst t)

/-- `create_sampler(pdf, x)` from `romanisim/cr.py`.  The function body has
no error handling whatsoever: it is total.  `cdf_y /= cdf_y.max()` with a
zero maximum is NumPy's silent `0.0/0.0 = NaN`; here division by zero is the
field's total `v / 0 = 0` (the theorems about the degenerate case only use
the *absence of an exception* plus the value of the zero divisor).
`y[0]` is modelled by `headD 0`; every call site passes a nonempty grid. -/
def create_sampler (pdf : List K → List K) (x : List K) : Sampler K :=
  let y := pdf x
  let cdf_y := (cumsum y).map (fun v => v - y.headD 0)
  let m := listMax cdf_y
  let cdf_n := cdf_y.map (fun v => v / m)
  ⟨sortByFst (cdf_n.zip x)⟩

/-- Linear interpolation through a sorted point list; a query outside the
abscissa range raises (`interp1d` default `bounds_error=True`). -/
def interpPoints (q : K) : List (K × K) → Except CrError K
  | [] => .error .outOfRange
  | [(x1, y1)] => if q = x1 then .ok y1 else .error .outOfRange
  | (x1, y1) :: (x2, y2) :: t =>
    if q < x1 then .error .outOfRange
    else if q ≤ x2 then .ok (y1 + (y2 - y1) * (q - x1) / (x2 - x1))
    else interpPoints q ((x2, y2) :: t)

/-- Evaluating the inverse CDF (`inverse_cdf(u)`). -/
def samplerEval (s : Sampler K) (q : K) : Except CrError K :=
  interpPoints q s.points

/-- Evaluate `mapExcept` over a list, propagating the first error
(an exception inside a vectorized NumPy evaluation aborts the whole call). -/
def mapExcept {α β : Type} (f : α → Except CrError β) : List α → Except CrError (List β)
  | [] => .ok []
  | a :: t =>
    match f a, mapExcept f t with
    | .ok b, .ok bs => .ok (b :: bs)
    | .error e, _ => .error e
    | .ok _, .error e => .error e

end SamplerDefs

/-- `moyal_distribution(x, location, scale)` from `romanisim/cr.py`. -/
noncomputable def moyal_distribution (x : List ℝ) (location : ℝ := 1000)
    (scale : ℝ := 300) : List ℝ :=
  x.map (fun v =>
    Real.exp (-((v - location) / scale + Real.exp (-((v - location) / scale))) / 2))

/-- `power_law_distribution(x, slope)` from `romanisim/cr.py`
(`np.power(x, slope)` is the real power `x ^ slope`). -/
noncomputable def power_law_distribution (x : List ℝ) (slope : ℝ := -433/100) : List ℝ :=
  x.map (fun v => v ^ slope)

/-! ## The random number generator model -/

/-- `np.random.Generator`, modelled as two deterministic oracle streams with
counters: `unif` backs `rng.random()` (forced into `[0,1)` by `Int.fract`,
exactly the guarantee `random` gives) and `pois` backs `rng.poisson(lam)`
for a nonzero mean.  The generator built from a seed is a deterministic
value, so equal seeds give equal `Rng` states. -/
structure Rng where
  unif : ℕ → ℚ
  pois : ℕ → ℕ
  uc : ℕ
  pc : ℕ

/-- One draw of `rng.random()`. -/
def drawUnif (r : Rng) : ℚ × Rng :=
  (Int.fract (r.unif r.uc), { r with uc := r.uc + 1 })

/-- `rng.random(n)`. -/
def drawUnifs : ℕ → Rng → List ℚ × Rng
  | 0, r => ([], r)
  | n + 1, r =>
    let (u, r1) := drawUnif r
    let (us, r2) := drawUnifs n r1
    (u :: us, r2)

/-- `rng.random(size=(n, 2))`, consumed row-major. -/
def drawUnifPairs : ℕ → Rng → List (ℚ × ℚ) × Rng
  | 0, r => ([], r)
  | n + 1, r =>
    let (u1, r1) := drawUnif r
    let (u2, r2) := drawUnif r1
    let (ps, r3) := drawUnifPairs n r2
    ((u1, u2) :: ps, r3)

/-- `rng.poisson(mean)`: an arbitrary natural number from the oracle stream,
except that a zero mean draws 0 with certainty (`Poisson(0) = 0` surely,
the only distributional fact the code depends on). -/
def poisson {K : Type} [LinearOrderedField K] (mean : K) (r : Rng) : ℕ × Rng :=
  (if mean = 0 then 0 else r.pois r.pc, { r with pc := r.pc + 1 })

/-- `rng.poisson(means)` on an array of means. -/
def poissonList {K : Type} [LinearOrderedField K] : List K → Rng → List ℕ × Rng
  | [], r => ([], r)
  | m :: t, r =>
    let (d, r1) := poisson m r
    let (ds, r2) := poissonList t r1
    (d :: ds, r2)

/-! ## `sample_cr_params` and `simulate_crs` -/

/-- `np.linspace(a, b, n)`: `n` evenly spaced points from `a` to `b`
inclusive. -/
def linspace (a b : ℚ) (n : ℕ) : List ℚ :=
  (List.range n).map (fun k => a + (b - a) * k / ((n : ℚ) - 1))

/-- `sample_cr_params` from `romanisim/cr.py`: positions, angles, path
lengths and energy losses for `N_samples` cosmic rays.  The `rng=None`
seeding branch is the caller's concern (an `Rng` is always supplied);
positions stay rational, while angles, lengths and energy losses are real
(the angle involves `π`, the densities involve `exp` and real powers). -/
noncomputable def sample_cr_params (N_samples : ℕ) (N_i : ℕ := 4096) (N_j : ℕ := 4096)
    (min_dEdx : ℚ := 10) (max_dEdx : ℚ := 10000)
    (min_cr_len : ℚ := 10) (max_cr_len : ℚ := 2000) (grid_size : ℕ := 10000)
    (rng : Rng := ⟨fun _ => 0, fun _ => 0, 0, 0⟩) :
    Except CrError (List ℚ × List ℚ × List ℝ × List ℝ × List ℝ) × Rng :=
  -- sample CR positions [pix]
  let (pos, rng) := drawUnifPairs N_samples rng
  let cr_i := pos.map (fun p => p.1 * (N_i : ℚ))
  let cr_j := pos.map (fun p => p.2 * (N_j : ℚ))
  -- sample CR direction [radian]
  let (uphi, rng) := drawUnifs N_samples rng
  let cr_phi : List ℝ := uphi.map (fun u => (u : ℝ) * 2 * Real.pi)
  -- sample path lengths [micron]
  let len_grid := (linspace min_cr_len max_cr_len grid_size).map (fun q => (q : ℝ))
  let inv_cdf_len := create_sampler (fun g => power_law_distribution g) len_grid
  let (ulen, rng) := drawUnifs N_samples rng
  match mapExcept (samplerEval inv_cdf_len) (ulen.map (fun u => (u : ℝ))) with
  | .error e => (.error e, rng)
  | .ok cr_length =>
    -- sample energy losses [eV/micron]
    let dEdx_grid := (linspace min_dEdx max_dEdx grid_size).map (fun q => (q : ℝ))
    let inv_cdf_dEdx := create_sampler (fun g => moyal_distribution g) dEdx_grid
    let (udEdx, rng) := drawUnifs N_samples rng
    match mapExcept (samplerEval inv_cdf_dEdx) (udEdx.map (fun u => (u : ℝ))) with
    | .error e => (.error e, rng)
    | .ok cr_dEdx => (.ok (cr_i, cr_j, cr_phi, cr_length, cr_dEdx), rng)

/-- The detector image: a mutable 2-d array of counts, modelled as a
function from (integer) pixel indices to values, owned by the caller. -/
def Image : Type := ℤ → ℤ → ℚ

/-- One buffered assignment `result[p] = original[p] + v` of a fancy-index
update (`img` is the buffer read, `acc` the result written so far). -/
def assignAdd (img : Image) (acc : Image) (pv : (ℤ × ℤ) × ℕ) : Image :=
  fun a b =>
    if a = pv.1.1 ∧ b = pv.1.2 then img pv.1.1 pv.1.2 + (pv.2 : ℚ) else acc a b

/-- `image[ii, jj] += vals` (NumPy fancy-index in-place addition): every
listed position is assigned `original + val`; on duplicated positions the
last assignment wins and only one increment survives, exactly as the
buffered NumPy operation behaves. -/
def fancyAdd (img : Image) (idx : List (ℤ × ℤ)) (vals : List ℕ) : Image :=
  (idx.zip vals).foldl (assignAdd img) img

/-- The condition of the leftover debugger hook in the injection loop of
`simulate_crs`: `np.any((jj == 76) & (ii == 54))`.  When it holds, the
Python loop calls `pdb.set_trace()` and hands control to an interactive
debugger. -/
def debugHook (ii jj : List ℤ) : Bool :=
  (ii.zip jj).any (fun p => p.1 == 54 && p.2 == 76)

/-- One iteration of the injection loop of `simulate_crs`: endpoint
computation, `traverse` (called with its *default* `N_i = N_j = 4096`
bounds, not the image shape), the 3-d path-length correction, the Poisson
charge draws added into the image, and the debugger-hook condition.
`none` models the iteration raising. -/
noncomputable def processEvent (gain pixel_size pixel_depth : ℚ) (N_i N_j : ℕ)
    (img : Image) (e : ℚ × ℚ × ℝ × ℝ × ℝ) (rng : Rng) :
    Option (Image × Bool × Rng) :=
  let (cr_i0, cr_j0, cr_phi, cr_len0, cr_dEdx) := e
  let cr_length := cr_len0 / (pixel_size : ℝ)
  let cr_i1 := clip ((cr_i0 : ℝ) + cr_length * Real.cos cr_phi) 1 ((N_i : ℝ) - 1)
  let cr_j1 := clip ((cr_j0 : ℝ) + cr_length * Real.sin cr_phi) 1 ((N_j : ℝ) - 1)
  -- go from eV/micron -> counts/pixel
  let counts_per_pix : ℝ := cr_dEdx * (pixel_size : ℝ) / (gain : ℝ)
  match traverse (K := ℝ) ((cr_i0 : ℝ), (cr_j0 : ℝ)) (cr_i1, cr_j1) with
  | .error _ => none
  | .ok (ii, jj, diffs) =>
    let length_2d := diffs.map (fun d => Real.sqrt (d.1 ^ 2 + d.2 ^ 2))
    let length_3d := length_2d.map
      (fun l => Real.sqrt (((pixel_depth : ℝ) / (pixel_size : ℝ)) ^ 2 + l ^ 2))
    let (draws, rng1) := poissonList (length_3d.map (fun l => counts_per_pix * l)) rng
    some (fancyAdd img (ii.zip jj) draws, debugHook ii jj, rng1)

/-- The injection loop of `simulate_crs` over the sampled events, threading
the image, the or-accumulated debugger-hook flag, and the generator. -/
noncomputable def runEvents (gain pixel_size pixel_depth : ℚ) (N_i N_j : ℕ) :
    List (ℚ × ℚ × ℝ × ℝ × ℝ) → Image → Bool → Rng → Option (Image × Bool × Rng)
  | [], img, flag, rng => some (img, flag, rng)
  | e :: rest, img, flag, rng =>
    match processEvent gain pixel_size pixel_depth N_i N_j img e rng with
    | none => none
    | some (img1, hit, rng1) =>
      runEvents gain pixel_size pixel_depth N_i N_j rest img1 (flag || hit) rng1

/-- `zip` of the five per-event parameter arrays (Python's `zip(...)` in the
injection loop). -/
def zip5 (a b : List ℚ) (c d e : List ℝ) : List (ℚ × ℚ × ℝ × ℝ × ℝ) :=
  a.zip (b.zip (c.zip (d.zip e)))

/-- `simulate_crs` from `romanisim/cr.py`.  `N_i, N_j = image.shape` are the
shape of the caller-owned buffer, passed alongside the function-modelled
image.  The result is `some (image', debuggerTriggered)`; `none` models the
call raising.  The dead local `im1 = image.copy()` is omitted.  The
`rng=None` seeding branch is the caller's concern (an `Rng` is supplied). -/
noncomputable def simulate_crs (N_i N_j : ℕ) (image : Image) (time : ℚ)
    (flux : ℚ := 8) (area : ℚ := 168/1000) (gain : ℚ := 19/5)
    (pixel_size : ℚ := 10) (pixel_depth : ℚ := 5)
    (rng : Rng := ⟨fun _ => 0, fun _ => 0, 0, 0⟩) : Option (Image × Bool) :=
  let (N_samples, rng) := poisson (flux * area * time) rng
  match sample_cr_params N_samples N_i N_j 10 10000 10 2000 10000 rng with
  | (.error _, _) => none
  | (.ok (cr_i0, cr_j0, cr_phi, cr_length, cr_dEdx), rng) =>
    match runEvents gain pixel_size pixel_depth N_i N_j
        (zip5 cr_i0 cr_j0 cr_phi cr_length cr_dEdx) image false rng with
    | none => none
    | some (img, flag, _) => some (img, flag)

/-! ## Concrete inputs used in the theorems -/

/-- A density that evaluates to zero at every point of its grid. -/
def zeroDensity : List ℚ → List ℚ := fun xs => xs.map (fun _ => 0)

/-- A concrete generator state (both oracle streams constantly zero). -/
def constRng : Rng := ⟨fun _ => 0, fun _ => 0, 0, 0⟩

/-- The all-zeros detector image. -/
def zeroImage : Image := fun _ _ => 0

/-! ## Helper lemmas -/

/-- `sample_cr_params` with zero samples draws nothing and returns five
empty arrays, leaving the generator state untouched. -/
theorem sample_cr_params_zero (Ni Nj : ℕ) (a b c d : ℚ) (g : ℕ) (rng : Rng) :
    sample_cr_params 0 Ni Nj a b c d g rng = (.ok ([], [], [], [], []), rng) := rfl

/-- With `flux = 0` the Poisson event count is surely zero and `simulate_crs`
returns the image unchanged (and the debugger hook untriggered). -/
theorem simulate_crs_flux_zero (Ni Nj : ℕ) (image : Image)
    (time area gain ps pd : ℚ) (rng : Rng) :
    simulate_crs Ni Nj image time 0 area gain ps pd rng = some (image, false) := by
  have h : (0 : ℚ) * area * time = 0 := by ring
  simp [simulate_crs, poisson, h, sample_cr_params_zero, zip5, runEvents]

section TraverseLemmas

variable {K : Type} [LinearOrderedField K] [FloorRing K]

/-- Every crossing that survives the detector-edge filter lies inside
`[0, N_i] × [0, N_j]`. -/
theorem survivingCrossings_bounded {i0 j0 i1 j1 : K} {N_i N_j : ℕ}
    {c : K × K} (hc : c ∈ survivingCrossings i0 j0 i1 j1 N_i N_j) :
    0 ≤ c.1 ∧ c.1 ≤ (N_i : K) ∧ 0 ≤ c.2 ∧ c.2 ≤ (N_j : K) := by
  simp only [survivingCrossings, List.mem_filter, decide_eq_true_eq] at hc
  exact hc.2

/-- The pixel pairs of a successful `traverseCore` are exactly the floors of
the surviving crossings (on both the multi-crossing and the short branch). -/
theorem traverseCore_pixels {i0 j0 i1 j1 : K} {N_i N_j : ℕ}
    {ii jj : List ℤ} {diffs : List (K × K)}
    (h : traverseCore i0 j0 i1 j1 N_i N_j = .ok (ii, jj, diffs)) :
    ii.zip jj = (survivingCrossings i0 j0 i1 j1 N_i N_j).map
      (fun c => ((⌊c.1⌋ : ℤ), (⌊c.2⌋ : ℤ))) := by
  have hz : ∀ (L : List (K × K)),
      ((L.map (fun c => ((⌊c.1⌋ : ℤ), (⌊c.2⌋ : ℤ)))).map Prod.fst).zip
        ((L.map (fun c => ((⌊c.1⌋ : ℤ), (⌊c.2⌋ : ℤ)))).map Prod.snd) =
      L.map (fun c => ((⌊c.1⌋ : ℤ), (⌊c.2⌋ : ℤ))) := by
    intro L
    rw [List.map_map, List.map_map, List.zip_map']
    rfl
  simp only [traverseCore] at h
  split at h
  · split at h
    · exact absurd h (by simp)
    · simp only [Except.ok.injEq, Prod.mk.injEq] at h
      obtain ⟨h1, h2, -⟩ := h
      rw [← h1, ← h2]
      exact hz _
  · simp only [Except.ok.injEq, Prod.mk.injEq] at h
    obtain ⟨h1, h2, -⟩ := h
    rw [← h1, ← h2]
    exact hz _

/-- Every pixel index pair returned by a successful `traverse` lies inside
`[0, N_i] × [0, N_j]`: crossings beyond the bounds passed to `traverse` are
discarded before pixels are derived. -/
theorem traverse_pixels_bounded {s e : K × K} {N_i N_j : ℕ}
    {ii jj : List ℤ} {diffs : List (K × K)}
    (h : traverse s e N_i N_j = .ok (ii, jj, diffs)) :
    ∀ p ∈ ii.zip jj,
      (0 ≤ p.1 ∧ p.1 ≤ (N_i : ℤ)) ∧ (0 ≤ p.2 ∧ p.2 ≤ (N_j : ℤ)) := by
  have key : ∀ (i0 j0 i1 j1 : K),
      traverseCore i0 j0 i1 j1 N_i N_j = .ok (ii, jj, diffs) →
      ∀ p ∈ ii.zip jj,
        (0 ≤ p.1 ∧ p.1 ≤ (N_i : ℤ)) ∧ (0 ≤ p.2 ∧ p.2 ≤ (N_j : ℤ)) := by
    intro i0 j0 i1 j1 hc p hp
    rw [traverseCore_pixels hc] at hp
    obtain ⟨c, hcm, rfl⟩ := List.mem_map.mp hp
    obtain ⟨h1, h2, h3, h4⟩ := survivingCrossings_bounded hcm
    refine ⟨⟨Int.floor_nonneg.mpr h1, ?_⟩, Int.floor_nonneg.mpr h3, ?_⟩
    · calc ⌊c.1⌋ ≤ ⌊(N_i : K)⌋ := Int.floor_mono h2
        _ = (N_i : ℤ) := Int.floor_natCast N_i
    · calc ⌊c.2⌋ ≤ ⌊(N_j : K)⌋ := Int.floor_mono h4
        _ = (N_j : ℤ) := Int.floor_natCast N_j
  unfold traverse at h
  split at h
  · exact key _ _ _ _ h
  · exact key _ _ _ _ h

end TraverseLemmas

/-! ## Lemmas about the image update -/

/-- A fancy-index `+=` never decreases any pixel: the added Poisson draws
are natural numbers. -/
theorem fancyAdd_le (img : Image) (idx : List (ℤ × ℤ)) (vals : List ℕ)
    (a b : ℤ) : img a b ≤ fancyAdd img idx vals a b := by
  have key : ∀ (l : List ((ℤ × ℤ) × ℕ)) (acc : Image),
      (∀ x y, img x y ≤ acc x y) →
      ∀ x y, img x y ≤ (l.foldl (assignAdd img) acc) x y := by
    intro l
    induction l with
    | nil => intro acc hacc x y; exact hacc x y
    | cons pv t ih =>
      intro acc hacc x y
      refine ih _ ?_ x y
      intro x' y'
      unfold assignAdd
      split_ifs with hxy
      · rw [hxy.1, hxy.2]
        exact le_add_of_nonneg_right (Nat.cast_nonneg _)
      · exact hacc x' y'
  exact key _ img (fun _ _ => le_rfl) a b

/-- A fancy-index `+=` leaves every position outside the index list
unchanged. -/
theorem fancyAdd_notMem (img : Image) (idx : List (ℤ × ℤ)) (vals : List ℕ)
    (a b : ℤ) (hab : (a, b) ∉ idx) : fancyAdd img idx vals a b = img a b := by
  have key : ∀ (l : List ((ℤ × ℤ) × ℕ)) (acc : Image),
      (∀ pv ∈ l, pv.1 ∈ idx) → acc a b = img a b →
      (l.foldl (assignAdd img) acc) a b = img a b := by
    intro l
    induction l with
    | nil => intro acc _ hacc; exact hacc
    | cons pv t ih =>
      intro acc hmem hacc
      refine ih _ (fun q hq => hmem q (List.mem_cons_of_mem _ hq)) ?_
      unfold assignAdd
      split_ifs with hxy
      · exact absurd (hxy.1 ▸ hxy.2 ▸ hmem pv (List.mem_cons_self _ _) :
          (a, b) ∈ idx) hab
      · exact hacc
  refine key _ img (fun pv hpv => (List.of_mem_zip hpv).1) rfl

/-! ## Lemmas about the injection loop -/

/-- One loop iteration never decreases any pixel of the image. -/
theorem processEvent_le {gain ps pd : ℚ} {Ni Nj : ℕ} {img : Image}
    {e : ℚ × ℚ × ℝ × ℝ × ℝ} {rng : Rng} {img1 : Image} {hit : Bool} {rng1 : Rng}
    (h : processEvent gain ps pd Ni Nj img e rng = some (img1, hit, rng1)) :
    ∀ a b, img a b ≤ img1 a b := by
  obtain ⟨i0, j0, phi, l0, dE⟩ := e
  simp only [processEvent] at h
  split at h
  · exact absurd h (by simp)
  · simp only [Option.some.injEq, Prod.mk.injEq] at h
    obtain ⟨h1, -, -⟩ := h
    intro a b
    rw [← h1]
    exact fancyAdd_le img _ _ a b

/-- One loop iteration touches only pixels with both indices at most 4096,
because the `traverse` call inside `simulate_crs` uses the default detector
bounds `N_i = N_j = 4096` whatever the image shape is. -/
theorem processEvent_frame {gain ps pd : ℚ} {Ni Nj : ℕ} {img : Image}
    {e : ℚ × ℚ × ℝ × ℝ × ℝ} {rng : Rng} {img1 : Image} {hit : Bool} {rng1 : Rng}
    (h : processEvent gain ps pd Ni Nj img e rng = some (img1, hit, rng1))
    (a b : ℤ) (hab : (4097 : ℤ) ≤ a ∨ (4097 : ℤ) ≤ b) : img1 a b = img a b := by
  obtain ⟨i0, j0, phi, l0, dE⟩ := e
  simp only [processEvent] at h
  split at h
  · exact absurd h (by simp)
  · rename_i ii jj diffs ht
    simp only [Option.some.injEq, Prod.mk.injEq] at h
    obtain ⟨h1, -, -⟩ := h
    rw [← h1]
    refine fancyAdd_notMem img _ _ a b ?_
    intro hmem
    have hb := traverse_pixels_bounded ht (a, b) hmem
    rcases hab with hab | hab
    · exact absurd hb.1.2 (by push_cast; omega)
    · exact absurd hb.2.2 (by push_cast; omega)

/-- The injection loop never decreases any pixel of the image. -/
theorem runEvents_le {gain ps pd : ℚ} {Ni Nj : ℕ} :
    ∀ (events : List (ℚ × ℚ × ℝ × ℝ × ℝ)) (img : Image) (flag : Bool)
      (rng : Rng) (out : Image × Bool × Rng),
      runEvents gain ps pd Ni Nj events img flag rng = some out →
      ∀ a b, img a b ≤ out.1 a b := by
  intro events
  induction events with
  | nil =>
    intro img flag rng out h a b
    simp only [runEvents, Option.some.injEq] at h
    rw [← h]
  | cons e rest ih =>
    intro img flag rng out h a b
    simp only [runEvents] at h
    split at h
    · exact absurd h (by simp)
    · rename_i img1 hit rng1 hp
      exact le_trans (processEvent_le hp a b) (ih img1 (flag || hit) rng1 out h a b)

/-- The injection loop leaves every pixel with an index beyond 4096
unchanged. -/
theorem runEvents_frame {gain ps pd : ℚ} {Ni Nj : ℕ} :
    ∀ (events : List (ℚ × ℚ × ℝ × ℝ × ℝ)) (img : Image) (flag : Bool)
      (rng : Rng) (out : Image × Bool × Rng),
      runEvents gain ps pd Ni Nj events img flag rng = some out →
      ∀ a b, (4097 : ℤ) ≤ a ∨ (4097 : ℤ) ≤ b → out.1 a b = img a b := by
  intro events
  induction events with
  | nil =>
    intro img flag rng out h a b _
    simp only [runEvents, Option.some.injEq] at h
    rw [← h]
  | cons e rest ih =>
    intro img flag rng out h a b hab
    simp only [runEvents] at h
    split at h
    · exact absurd h (by simp)
    · rename_i img1 hit rng1 hp
      rw [ih img1 (flag || hit) rng1 out h a b hab]
      exact processEvent_frame hp a b hab

/-! ## Lemmas about `create_sampler` on a degenerate density -/

/-- Cumulative sums of an all-zero list stay at the accumulator. -/
theorem cumsumFrom_zero (l : List ℚ) : ∀ (acc : ℚ), (∀ y ∈ l, y = 0) →
    ∀ v ∈ cumsumFrom acc l, v = acc := by
  induction l with
  | nil => intro acc _ v hv; simp [cumsumFrom] at hv
  | cons x t ih =>
    intro acc hz v hv
    have hx : x = 0 := hz x (List.mem_cons_self _ _)
    simp only [cumsumFrom] at hv
    rw [hx, add_zero] at hv
    rcases List.mem_cons.mp hv with rfl | hv
    · rfl
    · exact ih acc (fun y hy => hz y (List.mem_cons_of_mem _ hy)) v hv

/-- Folding `max` over an all-zero list from a zero seed gives zero. -/
theorem foldl_max_zero (l : List ℚ) : ∀ acc, acc = 0 → (∀ v ∈ l, v = 0) →
    l.foldl max acc = 0 := by
  induction l with
  | nil => intro acc ha _; simpa using ha
  | cons x t ih =>
    intro acc ha hz
    simp only [List.foldl_cons]
    refine ih _ ?_ (fun v hv => hz v (List.mem_cons_of_mem _ hv))
    rw [ha, hz x (List.mem_cons_self _ _)]
    simp

/-- The maximum of an all-zero array is zero (the degenerate divisor). -/
theorem listMax_zero (l : List ℚ) (h : ∀ v ∈ l, v = 0) : listMax l = 0 := by
  cases l with
  | nil => rfl
  | cons x t =>
    exact foldl_max_zero _ _ (h x (List.mem_cons_self _ _)) h

/-- Membership after a stable insertion. -/
theorem mem_insertByFst {p q : ℚ × ℚ} :
    ∀ (l : List (ℚ × ℚ)), q ∈ insertByFst p l → q = p ∨ q ∈ l := by
  intro l
  induction l with
  | nil =>
    intro h
    rw [insertByFst] at h
    left
    exact List.mem_singleton.mp h
  | cons r t ih =>
    intro h
    simp only [insertByFst] at h
    split_ifs at h with hc
    · rcases List.mem_cons.mp h with rfl | hq
      · right; exact List.mem_cons_self _ _
      · rcases ih hq with hq | hq
        · left; exact hq
        · right; exact List.mem_cons_of_mem _ hq
    · rcases List.mem_cons.mp h with rfl | hq
      · left; rfl
      · right; exact hq

/-- Membership after the stable sort `interp1d` performs. -/
theorem mem_sortByFst {q : ℚ × ℚ} :
    ∀ (l : List (ℚ × ℚ)), q ∈ sortByFst l → q ∈ l := by
  intro l
  induction l with
  | nil =>
    intro h
    rw [sortByFst] at h
    exact h
  | cons p t ih =>
    intro h
    rcases mem_insertByFst _ h with rfl | hq
    · exact List.mem_cons_self _ _
    · exact List.mem_cons_of_mem _ (ih hq)

/-! ## Claim theorems -/

/-- Claim C1 (code bug).  The sum of the chord lengths returned by
`traverse` does *not* equal the 2-d Euclidean trail length, even for trails
fully inside the grid: for the horizontal trail from `(2, 3.5)` to
`(2, 7.5)` (the worked example of the specification, Euclidean length `4`)
the code returns chord lengths `[1, 1, 1, 1, 0.5]` summing to `4.5`, far
beyond the claimed `1e-9` relative tolerance.  The crossing enumeration
steps in unit increments from the *start point* instead of crossing the
integer pixel boundaries, so the first chord is `1` instead of `0.5` and
the overall length is not conserved. -/
theorem traverse_length_not_conserved :
    traverseQ (2, 7/2) (2, 15/2) 4096 4096 =
      .ok ([2, 2, 2, 2, 2], [3, 4, 5, 6, 7],
        [(0, 1), (0, 1), (0, 1), (0, 1), (0, 1/2)]) ∧
    (realLengths [(0, 1), (0, 1), (0, 1), (0, 1), (0, 1/2)]).sum = 9/2 ∧
    trailDist (2, 7/2) (2, 15/2) = 4 ∧
    ¬ |(9/2 : ℝ) - 4| ≤ 4 * (1 / 1000000000) := by
  refine ⟨by with_unfolding_all decide, ?_, ?_, ?_⟩
  · simp only [realLengths, List.map_cons, List.map_nil, List.sum_cons,
      List.sum_nil]
    push_cast
    rw [show ((0:ℝ)^2 + 1^2) = 1 by norm_num,
      show ((0:ℝ)^2 + (1/2)^2) = (1/2)^2 by norm_num, Real.sqrt_one,
      Real.sqrt_sq (by norm_num : (0:ℝ) ≤ 1/2)]
    norm_num
  · simp only [trailDist]
    push_cast
    rw [show ((2:ℝ) - 2)^2 + ((15/2 : ℝ) - 7/2)^2 = 4^2 by norm_num,
      Real.sqrt_sq (by norm_num : (0:ℝ) ≤ 4)]
  · rw [not_le, show (9/2 : ℝ) - 4 = 1/2 by norm_num,
      abs_of_pos (by norm_num : (0:ℝ) < 1/2)]
    norm_num

/-- Claim C2 (code bug).  When the last surviving crossing is an exact
integer grid point — here the trail from `(0, 0)` to `(1.5, 1.5)`, whose
surviving crossings are `(0,0)` and `(1,1)` — `traverse` does *not* return
normally: the branch that drops the trailing zero-length segment
reassigns `ii`, `jj` and `diffs` but never assigns `lengths` (that
assignment sits inside the `else` branch only), so `return ii, jj, lengths`
raises `UnboundLocalError`. -/
theorem traverse_raises_unbound_lengths :
    survivingCrossings (0 : ℚ) 0 (3/2) (3/2) 4096 4096 = [(0, 0), (1, 1)] ∧
    traverseQ (0, 0) (3/2, 3/2) 4096 4096 = .error .unboundLengths := by
  with_unfolding_all decide

/-- Claim C3 (counterexample).  On the all-zero density, `create_sampler`
does not fail: the function body contains no degeneracy check and no raise
of any kind (no `DegenerateDistributionError` exists anywhere in the
repository), so it silently normalizes by the zero CDF maximum (an IEEE
`0.0/0.0 = NaN`, a total `0` here) and returns a sampler object. -/
theorem create_sampler_zero_returns_sampler :
    create_sampler zeroDensity [0, 1, 2] = ⟨[(0, 0), (0, 1), (0, 2)]⟩ := by
  with_unfolding_all decide

/-- Claim C3 (amended).  For every density that evaluates to zero at every
point of the grid, `create_sampler` returns (rather than failing with a
`DegenerateDistributionError`, which the code does not implement) a sampler
whose CDF abscissae are all zero, the normalizing maximum of the shifted
cumulative sums being `0` — the degenerate division the specification
wanted detected. -/
theorem create_sampler_zero_density (pdf : List ℚ → List ℚ) (xs : List ℚ)
    (hz : ∀ y ∈ pdf xs, y = 0) :
    listMax ((cumsum (pdf xs)).map (fun v => v - (pdf xs).headD 0)) = 0 ∧
    (create_sampler pdf xs).points.all (fun p => p.1 == 0) = true := by
  have hhead : (pdf xs).headD 0 = 0 := by
    cases hpx : pdf xs with
    | nil => rfl
    | cons y t => exact hz y (hpx ▸ List.mem_cons_self y t)
  have hcdf : ∀ v ∈ (cumsum (pdf xs)).map (fun v => v - (pdf xs).headD 0),
      v = 0 := by
    intro v hv
    obtain ⟨w, hw, rfl⟩ := List.mem_map.mp hv
    rw [cumsumFrom_zero (pdf xs) 0 hz w hw, hhead, sub_zero]
  refine ⟨listMax_zero _ hcdf, ?_⟩
  rw [List.all_eq_true]
  intro p hp
  simp only [create_sampler] at hp
  have hp2 := (List.of_mem_zip (mem_sortByFst _ hp)).1
  obtain ⟨w, hw, hweq⟩ := List.mem_map.mp hp2
  rw [beq_iff_eq, ← hweq, hcdf w hw, zero_div]

/-- Claim C3 (witness for the amended theorem), at the zero density on the
grid `[0, 1, 2]`. -/
theorem create_sampler_zero_density_witness :
    listMax ((cumsum (zeroDensity [0, 1, 2])).map
      (fun v => v - (zeroDensity [0, 1, 2]).headD 0)) = 0 ∧
    (create_sampler zeroDensity [0, 1, 2]).points.all
      (fun p => p.1 == 0) = true :=
  create_sampler_zero_density zeroDensity [0, 1, 2] (by with_unfolding_all decide)

/-- Claim C4 (code bug).  A pixel pair can appear twice in the output of
`traverse`: for the trail from `(0.5, 0.9)` to `(4, 1.95)` the crossings at
`(3.5, 1.8)` and `(23/6, 1.9)` both lie in pixel `(3, 1)`, which is
therefore emitted twice (the crossings are stepped from the start point,
not taken on pixel boundaries, so two of them can fall into one cell). -/
theorem traverse_pixel_repeated :
    traverseQ (1/2, 9/10) (4, 39/20) 4096 4096 =
      .ok ([0, 1, 2, 3, 3], [0, 1, 1, 1, 1],
        [(1, 3/10), (1, 3/10), (1, 3/10), (1/3, 1/10), (5/6, 9/10)]) ∧
    (pixelsOfResult (traverseQ (1/2, 9/10) (4, 39/20) 4096 4096)).count
      ((3 : ℤ), (1 : ℤ)) = 2 := by
  with_unfolding_all decide

/-- Claim C5 (counterexample).  For the vertical trail between
`a = (2, 3.5)` and `b = (2, 7.4)`, swapping the endpoints changes the
geometric result, not merely the enumeration order: pixel `(2, 7)` is
traversed according to `traverse a b` but absent from `traverse b a`
(the equal-`i` tie makes both calls start stepping from their second
argument, so the two calls step from opposite ends of the trail). -/
theorem traverse_vertical_swap_asymmetric :
    ((2 : ℤ), (7 : ℤ)) ∈ pixelsOfResult (traverseQ (2, 7/2) (2, 37/5) 4096 4096) ∧
    ((2 : ℤ), (7 : ℤ)) ∉ pixelsOfResult (traverseQ (2, 37/5) (2, 7/2) 4096 4096) := by
  with_unfolding_all decide

/-- Claim C5 (amended).  Whenever the two endpoints differ in their first
coordinate, `traverse a b` and `traverse b a` agree exactly (the same
triples in the same order): the canonicalization reduces both calls to the
same `traverseCore` call.  Only the vertical tie `a.1 = b.1` (see the
counterexample) escapes this. -/
theorem traverse_swap_of_ne {K : Type} [LinearOrderedField K] [FloorRing K]
    (a b : K × K) (N_i N_j : ℕ) (hne : a.1 ≠ b.1) :
    traverse a b N_i N_j = traverse b a N_i N_j := by
  unfold traverse
  rcases lt_or_gt_of_ne hne with hlt | hgt
  · rw [if_pos hlt, if_neg (not_lt.mpr (le_of_lt hlt))]
  · rw [if_neg (not_lt.mpr (le_of_lt hgt)), if_pos hgt]

/-- Claim C5 (witness for the amended theorem), at the horizontal trail
from `(0, 0)` to `(1, 0)`. -/
theorem traverse_swap_of_ne_witness :
    traverseQ (0, 0) (1, 0) 4096 4096 = traverseQ (1, 0) (0, 0) 4096 4096 :=
  traverse_swap_of_ne ((0 : ℚ), (0 : ℚ)) (1, 0) 4096 4096 (by norm_num)

/-- Claim C6 (code bug).  Processing an event whose trail stays inside
pixel `(54, 76)` — for instance from `(54.2, 76.2)` to `(54.9, 76.2)` —
produces exactly that pixel pair, and the leftover condition
`np.any((jj == 76) & (ii == 54))` in the injection loop of `simulate_crs`
(embedded as `debugHook`, used by `processEvent`) evaluates to true, upon
which the Python code calls `pdb.set_trace()` and opens an interactive
debugger: an external interaction beyond mutating the image and the RNG. -/
theorem debug_pixel_trail_triggers_hook :
    traverseQ (271/5, 381/5) (549/10, 381/5) 4096 4096 =
      .ok ([54], [76], [(7/10, 0)]) ∧
    debugHook [54] [76] = true := by
  with_unfolding_all decide

/-- Claim C7 (confirmed).  `simulate_crs` is a pure function of the image,
the parameters and the generator state: two runs from equal images with
equal seeds (hence equal `Rng` states — NumPy's generator is deterministic
in its seed) produce identical results, bit for bit. -/
theorem simulate_crs_deterministic (N_i N_j : ℕ) (image1 image2 : Image)
    (time flux area gain ps pd : ℚ) (rng1 rng2 : Rng)
    (himg : image1 = image2) (hrng : rng1 = rng2) :
    simulate_crs N_i N_j image1 time flux area gain ps pd rng1 =
      simulate_crs N_i N_j image2 time flux area gain ps pd rng2 := by
  rw [himg, hrng]

/-- Claim C7 (witness), two runs at a concrete image, seed and parameters. -/
theorem simulate_crs_deterministic_witness :
    simulate_crs 8 8 zeroImage 1 8 (168/1000) (19/5) 10 5 constRng =
      simulate_crs 8 8 zeroImage 1 8 (168/1000) (19/5) 10 5 constRng :=
  simulate_crs_deterministic 8 8 zeroImage zeroImage 1 8 (168/1000) (19/5)
    10 5 constRng constRng rfl rfl

/-- Claim C8 (confirmed).  When `simulate_crs` returns, every pixel of a
non-negative input image is at least its input value and in particular
non-negative: each event only adds natural-number Poisson draws
(`image[ii, jj] += rng.poisson(...)`), and even on duplicated indices the
surviving buffered assignment is an addition of a non-negative draw. -/
theorem simulate_crs_monotone_nonneg (N_i N_j : ℕ) (image : Image)
    (time flux area gain ps pd : ℚ) (rng : Rng) (imgOut : Image) (flag : Bool)
    (h : simulate_crs N_i N_j image time flux area gain ps pd rng =
      some (imgOut, flag))
    (hpos : ∀ x y, 0 ≤ image x y) (a b : ℤ) :
    image a b ≤ imgOut a b ∧ 0 ≤ imgOut a b := by
  have hle : ∀ x y, image x y ≤ imgOut x y := by
    simp only [simulate_crs] at h
    split at h
    · exact absurd h (by simp)
    · rename_i ci cj cphi clen cdE rng2 hs
      split at h
      · exact absurd h (by simp)
      · rename_i img2 flag2 rng3 hr
        simp only [Option.some.injEq, Prod.mk.injEq] at h
        obtain ⟨h1, -⟩ := h
        intro x y
        rw [← h1]
        exact runEvents_le _ image false _ _ hr x y
  exact ⟨hle a b, le_trans (hpos a b) (hle a b)⟩

/-- Claim C8 (witness), at the zero image with `flux = 0`. -/
theorem simulate_crs_monotone_nonneg_witness :
    zeroImage 0 0 ≤ zeroImage 0 0 ∧ (0 : ℚ) ≤ zeroImage 0 0 :=
  simulate_crs_monotone_nonneg 8 8 zeroImage 1 0 1 1 1 1 constRng zeroImage
    false (simulate_crs_flux_zero 8 8 zeroImage 1 1 1 1 1 constRng)
    (fun _ _ => le_rfl) 0 0

/-- Claim C9 (confirmed).  With `flux = 0` the Poisson mean
`flux * area * time` is zero, the drawn event count is surely zero, no
event is processed, and `simulate_crs` returns the image unchanged (for
every image, every generator state and all other parameters). -/
theorem simulate_crs_zero_flux_id (N_i N_j : ℕ) (image : Image)
    (time area gain ps pd : ℚ) (rng : Rng) :
    simulate_crs N_i N_j image time 0 area gain ps pd rng =
      some (image, false) :=
  simulate_crs_flux_zero N_i N_j image time area gain ps pd rng

/-- Claim C10 (confirmed).  `simulate_crs` calls `traverse` without bounds
arguments, so the fixed defaults `N_i = N_j = 4096` apply whatever the
image shape: every crossing with a coordinate above 4096 is discarded
before any charge deposit, and consequently every pixel with an index of
at least 4097 — even one inside a larger image — is left exactly
unchanged by the whole simulation. -/
theorem simulate_crs_fixed_bounds_frame (N_i N_j : ℕ) (image : Image)
    (time flux area gain ps pd : ℚ) (rng : Rng) (imgOut : Image) (flag : Bool)
    (h : simulate_crs N_i N_j image time flux area gain ps pd rng =
      some (imgOut, flag))
    (a b : ℤ) (hab : (4097 : ℤ) ≤ a ∨ (4097 : ℤ) ≤ b) :
    imgOut a b = image a b := by
  simp only [simulate_crs] at h
  split at h
  · exact absurd h (by simp)
  · rename_i ci cj cphi clen cdE rng2 hs
    split at h
    · exact absurd h (by simp)
    · rename_i img2 flag2 rng3 hr
      simp only [Option.some.injEq, Prod.mk.injEq] at h
      obtain ⟨h1, -⟩ := h
      rw [← h1]
      exact runEvents_frame _ image false _ _ hr a b hab

/-- Claim C10 (witness): a 6000 × 6000 image, whose pixel `(5000, 5000)`
lies inside the image but beyond the fixed 4096 bound, is untouched
there. -/
theorem simulate_crs_fixed_bounds_frame_witness :
    ((4097 : ℤ) ≤ 5000 ∨ (4097 : ℤ) ≤ 5000) ∧
      zeroImage 5000 5000 = zeroImage 5000 5000 :=
  ⟨Or.inl (by decide),
    simulate_crs_fixed_bounds_frame 6000 6000 zeroImage 1 0 1 1 1 1 constRng
      zeroImage false (simulate_crs_flux_zero 6000 6000 zeroImage 1 1 1 1 1 constRng)
      5000 5000 (Or.inl (by decide))⟩

end Romanisim

